import Mathlib

/-!
Verification of the quiz-engine core of `app.py` (a vocabulary self-quiz
application): the similarity-based distractor filter, the random fallback
fill, the adaptive weighted question selection, and the per-question
session state machine.  Python code is shallowly embedded: pure functions
become Lean functions, the mutable `st.session_state` becomes an explicit
`SessionState` value, randomness (`random.shuffle`, `random.choice`,
`random.choices`, `random.sample`) is parameterised by oracle streams, and
the fallible history append becomes an `Except` computation.
-/

namespace ToeicQuiz


/-! ### The difflib similarity metric

`is_similar` in `app.py` calls `difflib.SequenceMatcher(None, a, b).ratio()`.
The model below reproduces the Ratcliff-Obershelp computation performed by
CPython's `difflib` for `isjunk=None` on sequences below the 200-element
autojunk cutoff (meanings in the app are short strings): find the longest
matching block — maximal size, ties broken by least index in `a`, then
least index in `b` — recurse on the two remaining sides (a side is only
processed when both of its halves are non-empty), sum the block sizes, and
return `2 * matches / (len a + len b)`. -/

/-- Length of the longest common prefix of two character lists: the size of
the matching run starting at a given pair of positions. -/
def runLen : List Char → List Char → Nat
  | x :: xs, y :: ys => if x = y then runLen xs ys + 1 else 0
  | _, _ => 0

/-- All candidate matching blocks `(i, j, k)`: `k` is the length of the
maximal matching run beginning at position `i` of `a` and `j` of `b`,
enumerated with `i` ascending and, inside each `i`, `j` ascending. -/
def blockCandidates (a b : List Char) : List (Nat × Nat × Nat) :=
  (List.range a.length).flatMap fun i =>
    (List.range b.length).map fun j => (i, j, runLen (a.drop i) (b.drop j))

/-- `find_longest_match` of difflib (no junk): the first block of strictly
greatest size in the enumeration order, i.e. maximal `k`, ties broken by
least `i`, then least `j`; `(0, 0, 0)` when nothing matches. -/
def findLongestMatch (a b : List Char) : Nat × Nat × Nat :=
  (blockCandidates a b).foldl
    (fun best c => if best.2.2 < c.2.2 then c else best) (0, 0, 0)

/-- Total number of matched characters as summed by
`get_matching_blocks`: the recursion of difflib on the regions to the left
and to the right of the longest match, where a region is only explored
when both of its sides are non-empty.  The `fuel` argument makes the
recursion structural; the recursion depth is bounded by the total length,
so `matchSum` supplies fuel `a.length + b.length`, which is never
exhausted. -/
def matchSumF : Nat → List Char → List Char → Nat
  | 0, _, _ => 0
  | fuel + 1, a, b =>
    let m := findLongestMatch a b
    let i := m.1
    let j := m.2.1
    let k := m.2.2
    if k = 0 then 0
    else
      k + (if 0 < i ∧ 0 < j then matchSumF fuel (a.take i) (b.take j) else 0)
        + (if i + k < a.length ∧ j + k < b.length then
            matchSumF fuel (a.drop (i + k)) (b.drop (j + k)) else 0)

/-- Matched-character count of `difflib.SequenceMatcher(None, a, b)`. -/
def matchSum (a b : List Char) : Nat :=
  matchSumF (a.length + b.length) a b

/-- `SequenceMatcher(None, str(s1), str(s2)).ratio()`:
`2 * matches / (len s1 + len s2)`, and `1.0` for two empty sequences,
exactly as `difflib._calculate_ratio`; the Python float is modelled as a
rational. -/
def ratio (s1 s2 : String) : ℚ :=
  if s1.length + s2.length = 0 then 1
  else (2 * matchSum s1.data s2.data : ℚ) / ((s1.length + s2.length : ℕ) : ℚ)

/-- `is_similar(str1, str2, threshold)` from `app.py`: `True` on exact
equality, otherwise `True` iff the SequenceMatcher ratio strictly exceeds
the threshold (default `0.4`). -/
def is_similar (str1 str2 : String) (threshold : ℚ) : Bool :=
  if str1 = str2 then true
  else decide (threshold < ratio str1 str2)

/-! ### Distractor generation (quiz page, inline)

The quiz page builds `distractors` by shuffling `all_meanings` and scanning
it: a candidate is skipped when three distractors are already collected,
when it equals the correct meaning, when it `is_similar` to the correct
meaning, or when it `is_similar` to an already accepted distractor; then a
`while len(distractors) < 3` loop repeatedly draws `random.choice(all_meanings)`
and appends draws that differ from the correct meaning and from all chosen
distractors.  The shuffled scan order is modelled by the list itself
(quantified over), `random.choice` by an oracle stream `f : ℕ → String`,
and the unbounded `while` by its finite unrollings over stream prefixes. -/

/-- One iteration body of the fallback `while` loop: keep the draw `m`
only if it differs from the correct meaning and from every chosen
distractor. -/
def distractorStep (correct : String) (ds : List String) (m : String) : List String :=
  if m ≠ correct ∧ m ∉ ds then ds ++ [m] else ds

/-- The filter scan over the (shuffled) candidate list with threshold 0.4:
stop at three distractors; otherwise skip the correct meaning, candidates
similar to it, and candidates similar to an accepted distractor. -/
def filterLoop (correct : String) : List String → List String → List String
  | [], ds => ds
  | c :: rest, ds =>
    if 3 ≤ ds.length then ds
    else if c = correct then filterLoop correct rest ds
    else if is_similar c correct (2/5) then filterLoop correct rest ds
    else if ds.any fun d => is_similar c d (2/5) then filterLoop correct rest ds
    else filterLoop correct rest (ds ++ [c])

/-- The fallback `while` loop unrolled over a finite list of draws:
each round first tests `len(distractors) < 3`, then consumes one draw. -/
def fillFromDraws (correct : String) : List String → List String → List String
  | [], ds => ds
  | m :: rest, ds =>
    if 3 ≤ ds.length then ds
    else fillFromDraws correct rest (distractorStep correct ds m)

/-- The first `n` values of a draw stream. -/
def streamTake (f : ℕ → String) (n : ℕ) : List String :=
  (List.range n).map f

/-- The whole distractor-generation step: the filter scan over the pool in
its (shuffled) order, then `n` rounds of the fallback fill fed by the
draw stream `f`. -/
def generateDistractors (pool : List String) (correct : String)
    (f : ℕ → String) (n : ℕ) : List String :=
  fillFromDraws correct (streamTake f n) (filterLoop correct pool [])

/-- The fallback fill terminates on draw stream `f` from initial
distractor list `ds`: some finite unrolling reaches three distractors. -/
def FillTerminates (correct : String) (f : ℕ → String) (ds : List String) : Prop :=
  ∃ n, 3 ≤ (fillFromDraws correct (streamTake f n) ds).length

/-- A draw stream is fair for a pool when every pool element is drawn at
arbitrarily late times; a uniform `random.choice` stream has this
property with probability one. -/
def Fair (f : ℕ → String) (pool : List String) : Prop :=
  ∀ x ∈ pool, ∀ n, ∃ m, n ≤ m ∧ f m = x

/-! ### History and adaptive question selection

`save_history` appends one `(Word, IsCorrect, Timestamp)` row; a history
is modelled as the list of `(word, correct)` pairs (timestamps play no
role in the weighting).  `get_weighted_questions` aggregates, per word,
`corrects = sum of IsCorrect` and `total = count` over the grouped rows,
sets `wrongs = total - corrects`, computes
`score = 10 + wrongs * 20 - corrects * 2` floored at `1`, and then draws
`min(num_questions, len(words))` words one at a time with
`random.choices(temp_words, weights=temp_weights)`, removing each drawn
word (first occurrence, via `temp_words.index`) and its weight. -/

/-- One history event: the word asked and whether the answer was correct. -/
abbrev HistoryEvent := String × Bool

/-- The rows of the history for one word. -/
def rowsFor (history : List HistoryEvent) (word : String) : List HistoryEvent :=
  history.filter fun e => e.1 = word

/-- `corrects` of the aggregation: the sum of the stored 0/1 flags. -/
def correctsOf (history : List HistoryEvent) (word : String) : ℕ :=
  ((rowsFor history word).map fun e => if e.2 then 1 else 0).sum

/-- `total` of the aggregation: the number of rows for the word. -/
def totalOf (history : List HistoryEvent) (word : String) : ℕ :=
  (rowsFor history word).length

/-- `wrongs = total - corrects` as computed by the code. -/
def wrongsOf (history : List HistoryEvent) (word : String) : ℕ :=
  totalOf history word - correctsOf history word

/-- The sampling weight of one word:
`score = 10 + wrongs * 20 - corrects * 2`, floored at `1`.  Python
integers are `ℤ`. -/
def wordWeight (history : List HistoryEvent) (word : String) : ℤ :=
  let score : ℤ := 10 + (wrongsOf history word : ℤ) * 20 - (correctsOf history word : ℤ) * 2
  if score < 1 then 1 else score

/-- The weighted draw-without-replacement loop of `get_weighted_questions`:
`n` rounds; each round the oracle `pick` chooses one index of the current
candidate list (`random.choices` with all-positive weights can return any
of them), the chosen word is appended to the output, and its first
occurrence (found by `list.index`) is removed from both the word and the
weight list. -/
def selectLoop (pick : ℕ → ℕ) : ℕ → List String → List ℤ → ℕ → List String
  | _, _, _, 0 => []
  | step, tw, wts, n + 1 =>
    match h : tw with
    | [] => []
    | _ :: _ =>
      let i := pick step % tw.length
      let chosen := tw.get ⟨i, Nat.mod_lt _ (by rw [h]; simp)⟩
      let idx := tw.indexOf chosen
      chosen :: selectLoop pick (step + 1) (tw.eraseIdx idx) (wts.eraseIdx idx) n

/-- `get_weighted_questions words num` in adaptive mode with a readable
history: weights from the history, then the weighted
draw-without-replacement loop over `min num (len words)` rounds. -/
def get_weighted_questions (pick : ℕ → ℕ) (history : List HistoryEvent)
    (words : List String) (num : ℕ) : List String :=
  selectLoop pick 0 words (words.map (wordWeight history)) (min num words.length)

/-- Modelled from the standard library: `random.sample(words, k)` draws
`k` distinct positions without replacement; the oracle `pick` chooses the
position drawn in each round.  Used by the uniform mode of
`initialize_quiz` and by the fallbacks of `get_weighted_questions` (missing
history file, unreadable history). -/
def uniformSample (pick : ℕ → ℕ) : ℕ → List String → ℕ → List String
  | _, _, 0 => []
  | step, tw, n + 1 =>
    match h : tw with
    | [] => []
    | _ :: _ =>
      let i := pick step % tw.length
      tw.get ⟨i, Nat.mod_lt _ (by rw [h]; simp)⟩ :: uniformSample pick (step + 1) (tw.eraseIdx i) n

/-! ### The session state machine

`st.session_state` during a quiz, as mutated by `initialize_quiz`,
`check_answer`, `handle_time_up` and `move_to_next`. -/

/-- The immutable per-session data stored in `st.session_state.quiz_data`. -/
structure QuizData where
  words_dict : List (String × String)
  question_words : List String
  total_questions : ℕ
deriving DecidableEq, Repr

/-- Dictionary lookup `words_dict[q_word]` (the program only looks up
words that are keys). -/
def QuizData.meaning (qd : QuizData) (word : String) : String :=
  ((qd.words_dict.find? fun e => e.1 = word).map fun e => e.2).getD ""

/-- `list(words_dict.values())`: the meaning pool used by the distractor
generation. -/
def QuizData.meanings (qd : QuizData) : List String :=
  qd.words_dict.map fun e => e.2

/-- The mutable session state of the quiz page. -/
structure SessionState where
  quiz_data : QuizData
  current_index : ℕ
  score : ℕ
  quiz_finished : Bool
  current_choices : Option (List String)
  last_result : Option (String × Bool)
  history : List HistoryEvent
deriving DecidableEq, Repr

/-- The state right after `initialize_quiz` succeeds: index 0, score 0,
not finished, no cached choices, no last result. -/
def initState (qd : QuizData) (h0 : List HistoryEvent) : SessionState :=
  { quiz_data := qd, current_index := 0, score := 0, quiz_finished := false,
    current_choices := none, last_result := none, history := h0 }

/-- The word of the current question, `question_words[current_index]`. -/
def SessionState.q_word (s : SessionState) : String :=
  s.quiz_data.question_words.getD s.current_index ""

/-- The correct meaning of the current question. -/
def SessionState.correct_meaning (s : SessionState) : String :=
  s.quiz_data.meaning s.q_word

/-- `move_to_next`: advance the index, clear the cached choices, and mark
the quiz finished when the index reaches the question count. -/
def move_to_next (s : SessionState) : SessionState :=
  let s2 := { s with current_index := s.current_index + 1, current_choices := none }
  if s2.quiz_data.total_questions ≤ s2.current_index
  then { s2 with quiz_finished := true } else s2

/-- `check_answer(selected_meaning)`: record the answer in the history,
bump the score and set the result message on a match, set the failure
message otherwise, then `move_to_next`. -/
def check_answer (selected_meaning : String) (s : SessionState) : SessionState :=
  let correct := s.correct_meaning
  let is_correct := decide (selected_meaning = correct)
  let s2 := { s with history := s.history ++ [(s.q_word, is_correct)] }
  let s3 :=
    if is_correct then
      { s2 with score := s2.score + 1, last_result := some ("✅ 正解！", true) }
    else
      { s2 with last_result := some ("❌ 不正解... (正解は「" ++ correct ++ "」)", false) }
  move_to_next s3

/-- `handle_time_up()`: record a wrong answer, set the timeout message,
then `move_to_next`; the score is untouched. -/
def handle_time_up (s : SessionState) : SessionState :=
  let correct := s.correct_meaning
  let s2 := { s with history := s.history ++ [(s.q_word, false)] }
  let s3 := { s2 with last_result := some ("⏰ 時間切れ！ (正解は「" ++ correct ++ "」)", false) }
  move_to_next s3

/-- `save_history` opens the history file and appends one row; there is no
exception handling anywhere on the answer path, so an unavailable store
raises out of the transition.  The failure is modelled by `Except`, the
error value carrying the (unchanged) session state at the raise point. -/
def save_historyE (storage_ok : Bool) (word : String) (is_correct : Bool)
    (s : SessionState) : Except SessionState SessionState :=
  if storage_ok then Except.ok { s with history := s.history ++ [(word, is_correct)] }
  else Except.error s

/-- `check_answer` with the fallible history append: the append runs
before the score update and the index advance, so a failure aborts the
whole transition. -/
def check_answerE (storage_ok : Bool) (selected_meaning : String)
    (s : SessionState) : Except SessionState SessionState := do
  let correct := s.correct_meaning
  let is_correct := decide (selected_meaning = correct)
  let s2 ← save_historyE storage_ok s.q_word is_correct s
  let s3 :=
    if is_correct then
      { s2 with score := s2.score + 1, last_result := some ("✅ 正解！", true) }
    else
      { s2 with last_result := some ("❌ 不正解... (正解は「" ++ correct ++ "」)", false) }
  return move_to_next s3

/-- `handle_time_up` with the fallible history append. -/
def handle_time_upE (storage_ok : Bool) (s : SessionState) :
    Except SessionState SessionState := do
  let correct := s.correct_meaning
  let s2 ← save_historyE storage_ok s.q_word false s
  let s3 := { s2 with last_result := some ("⏰ 時間切れ！ (正解は「" ++ correct ++ "」)", false) }
  return move_to_next s3

/-- The states reachable during one quiz run: transitions fire only from
the quiz page while the result screen is not shown, i.e. while
`quiz_finished` is false. -/
inductive Reach (init : SessionState) : SessionState → Prop
  | refl : Reach init init
  | answer (s : SessionState) (sel : String) (hs : Reach init s)
      (hrun : s.quiz_finished = false) : Reach init (check_answer sel s)
  | timeup (s : SessionState) (hs : Reach init s)
      (hrun : s.quiz_finished = false) : Reach init (handle_time_up s)

/-! ### Auxiliary notions for the termination analysis -/

/-- The usable pool of the fallback fill: the distinct meanings other than
the correct one. -/
def usablePool (pool : List String) (correct : String) : List String :=
  pool.dedup.filter fun x => x ≠ correct

/-- A cyclic draw stream over a four-element pool, used as the concrete
fair stream of the witnesses. -/
def cyc4 : ℕ → String :=
  fun n => ["a", "b", "c", "d"].getD (n % 4) "a"

/-! ### Lemmas and claim theorems -/

/-- Evaluation helper: once the match count and the total length are
computed on the `Nat` level, `ratio` is plain rational arithmetic. -/
lemma ratio_eval (s1 s2 : String) (M T : ℕ) (hM : matchSum s1.data s2.data = M)
    (hT : s1.length + s2.length = T) (hT0 : T ≠ 0) :
    ratio s1 s2 = (2 * M : ℚ) / T := by
  unfold ratio
  rw [hM, hT, if_neg hT0]

/-- Evaluation helper for `is_similar` on unequal strings. -/
lemma is_similar_eval (s1 s2 : String) (t : ℚ) (hne : s1 ≠ s2) :
    is_similar s1 s2 t = decide (t < ratio s1 s2) := by
  simp [is_similar, hne]

/-! #### Invariants of the filter scan -/

/-- Two equal strings are always similar: the first branch of `is_similar`. -/
lemma is_similar_self (s : String) (t : ℚ) : is_similar s s t = true := by
  simp [is_similar]

/-- Contrapositive of the equality branch: a dissimilar pair is unequal. -/
lemma ne_of_not_similar {a b : String} {t : ℚ} (h : is_similar a b t = false) : a ≠ b := by
  intro hab
  rw [hab, is_similar_self] at h
  cases h

/-- The filter scan only ever appends; every element of the result comes
from the initial list or from the candidate list. -/
lemma filterLoop_subset (correct : String) :
    ∀ (cands ds : List String), ∀ d ∈ filterLoop correct cands ds, d ∈ ds ∨ d ∈ cands := by
  intro cands
  induction cands with
  | nil => intro ds d hd; exact Or.inl hd
  | cons c rest ih =>
    intro ds d hd
    rw [filterLoop] at hd
    split at hd
    · exact Or.inl hd
    · split at hd
      · rcases ih ds d hd with h | h
        · exact Or.inl h
        · exact Or.inr (List.mem_cons_of_mem _ h)
      · split at hd
        · rcases ih ds d hd with h | h
          · exact Or.inl h
          · exact Or.inr (List.mem_cons_of_mem _ h)
        · split at hd
          · rcases ih ds d hd with h | h
            · exact Or.inl h
            · exact Or.inr (List.mem_cons_of_mem _ h)
          · rcases ih _ d hd with h | h
            · rcases List.mem_append.1 h with h2 | h2
              · exact Or.inl h2
              · simp at h2
                exact Or.inr (h2 ▸ List.mem_cons_self _ _)
            · exact Or.inr (List.mem_cons_of_mem _ h)

/-- The filter scan never grows the distractor list beyond three. -/
lemma filterLoop_length_le (correct : String) :
    ∀ (cands ds : List String), ds.length ≤ 3 → (filterLoop correct cands ds).length ≤ 3 := by
  intro cands
  induction cands with
  | nil => intro ds h; exact h
  | cons c rest ih =>
    intro ds h
    rw [filterLoop]
    split
    · exact h
    · next hlen =>
      split
      · exact ih ds h
      · split
        · exact ih ds h
        · split
          · exact ih ds h
          · exact ih _ (by simp; omega)

/-- Acceptance invariant of the filter scan: every accepted candidate is
dissimilar to the correct meaning, and each is dissimilar to all earlier
accepted distractors. -/
lemma filterLoop_dissimilar (correct : String) :
    ∀ (cands ds : List String),
      (∀ d ∈ ds, is_similar d correct (2/5) = false) →
      ds.Pairwise (fun a b => is_similar b a (2/5) = false) →
      (∀ d ∈ filterLoop correct cands ds, is_similar d correct (2/5) = false) ∧
        (filterLoop correct cands ds).Pairwise (fun a b => is_similar b a (2/5) = false) := by
  intro cands
  induction cands with
  | nil => intro ds h1 h2; exact ⟨h1, h2⟩
  | cons c rest ih =>
    intro ds h1 h2
    rw [filterLoop]
    split
    · exact ⟨h1, h2⟩
    · split
      · exact ih ds h1 h2
      · next hsim =>
        split
        · exact ih ds h1 h2
        · next hsimc =>
          split
          · exact ih ds h1 h2
          · next hany =>
            have hcc : is_similar c correct (2/5) = false := by
              revert hsimc; cases is_similar c correct (2/5) <;> simp
            have hall : ∀ d ∈ ds, is_similar c d (2/5) = false := by
              intro d hd
              by_contra hx
              exact hany (List.any_eq_true.2 ⟨d, hd, by
                revert hx; cases is_similar c d (2/5) <;> simp⟩)
            refine ih _ ?_ ?_
            · intro d hd
              rcases List.mem_append.1 hd with h | h
              · exact h1 d h
              · simp at h; rw [h]; exact hcc
            · rw [List.pairwise_append]
              refine ⟨h2, by simp, ?_⟩
              intro a ha b hb
              simp at hb
              rw [hb]
              exact hall a ha

/-- Acceptance keeps the distractor list duplicate-free and free of the
correct meaning. -/
lemma filterLoop_nodup (correct : String) (cands ds : List String)
    (h1 : ∀ d ∈ ds, is_similar d correct (2/5) = false)
    (h2 : ds.Pairwise (fun a b => is_similar b a (2/5) = false)) :
    (filterLoop correct cands ds).Nodup ∧
      ∀ d ∈ filterLoop correct cands ds, d ≠ correct := by
  obtain ⟨ha, hb⟩ := filterLoop_dissimilar correct cands ds h1 h2
  constructor
  · exact hb.imp fun h => (ne_of_not_similar h).symm
  · intro d hd
    exact ne_of_not_similar (ha d hd)

/-! #### Invariants and termination of the fallback fill -/

/-- Once three distractors are present the `while` loop exits at once:
further draws change nothing. -/
lemma fillFromDraws_stable (correct : String) (draws ds : List String)
    (h : 3 ≤ ds.length) : fillFromDraws correct draws ds = ds := by
  cases draws with
  | nil => rfl
  | cons m rest => rw [fillFromDraws, if_pos h]

/-- Splitting the draw list splits the loop run. -/
lemma fillFromDraws_append (correct : String) :
    ∀ (d1 d2 ds : List String),
      fillFromDraws correct (d1 ++ d2) ds
        = fillFromDraws correct d2 (fillFromDraws correct d1 ds) := by
  intro d1
  induction d1 with
  | nil => intro d2 ds; rfl
  | cons m rest ih =>
    intro d2 ds
    by_cases h : 3 ≤ ds.length
    · rw [List.cons_append, fillFromDraws, if_pos h, fillFromDraws, if_pos h,
        fillFromDraws_stable correct d2 ds h]
    · rw [List.cons_append, fillFromDraws, if_neg h, fillFromDraws, if_neg h, ih]

/-- One round of the loop: test the length, then consume one draw. -/
lemma fillFromDraws_single (correct : String) (m : String) (ds : List String) :
    fillFromDraws correct [m] ds
      = if 3 ≤ ds.length then ds else distractorStep correct ds m := by
  by_cases h : 3 ≤ ds.length
  · rw [fillFromDraws, if_pos h, if_pos h]
  · rw [fillFromDraws, if_neg h, if_neg h]; rfl

lemma streamTake_succ (f : ℕ → String) (n : ℕ) :
    streamTake f (n + 1) = streamTake f n ++ [f n] := by
  unfold streamTake
  rw [List.range_succ, List.map_append]
  rfl

/-- The state after `n + 1` rounds in terms of the state after `n`. -/
lemma fill_state_succ (correct : String) (f : ℕ → String) (ds : List String) (n : ℕ) :
    fillFromDraws correct (streamTake f (n + 1)) ds
      = (if 3 ≤ (fillFromDraws correct (streamTake f n) ds).length
          then fillFromDraws correct (streamTake f n) ds
          else distractorStep correct (fillFromDraws correct (streamTake f n) ds) (f n)) := by
  rw [streamTake_succ, fillFromDraws_append, fillFromDraws_single]

/-- Each round either keeps the list or appends a single fresh draw. -/
lemma distractorStep_cases (correct : String) (ds : List String) (m : String) :
    distractorStep correct ds m = ds ∨
      (m ≠ correct ∧ m ∉ ds ∧ distractorStep correct ds m = ds ++ [m]) := by
  unfold distractorStep
  split
  · next h => exact Or.inr ⟨h.1, h.2, rfl⟩
  · exact Or.inl rfl

/-- The distractor list only grows along the loop: lengths are
non-decreasing and membership is preserved. -/
lemma fill_state_mono (correct : String) (f : ℕ → String) (ds : List String) :
    ∀ (n m : ℕ), n ≤ m →
      (fillFromDraws correct (streamTake f n) ds).length
          ≤ (fillFromDraws correct (streamTake f m) ds).length ∧
        (∀ x ∈ fillFromDraws correct (streamTake f n) ds,
          x ∈ fillFromDraws correct (streamTake f m) ds) := by
  intro n m hnm
  induction m with
  | zero => cases Nat.le_zero.1 hnm; exact ⟨le_rfl, fun x hx => hx⟩
  | succ k ih =>
    rcases Nat.lt_or_ge n (k + 1) with h | h
    · have hk := ih (Nat.lt_succ_iff.1 h)
      rw [fill_state_succ]
      split
      · exact hk
      · rcases distractorStep_cases correct
          (fillFromDraws correct (streamTake f k) ds) (f k) with hc | hc
        · rw [hc]; exact hk
        · rw [hc.2.2]
          refine ⟨le_trans hk.1 (by simp), fun x hx => ?_⟩
          exact List.mem_append_left _ (hk.2 x hx)
    · have : n = k + 1 := le_antisymm hnm h
      subst this
      exact ⟨le_rfl, fun x hx => hx⟩

/-- Elements produced by the loop come from the initial list or from the
draws. -/
lemma fillFromDraws_subset (correct : String) :
    ∀ (draws ds : List String), ∀ x ∈ fillFromDraws correct draws ds,
      x ∈ ds ∨ x ∈ draws := by
  intro draws
  induction draws with
  | nil => intro ds x hx; exact Or.inl hx
  | cons m rest ih =>
    intro ds x hx
    rw [fillFromDraws] at hx
    split at hx
    · exact Or.inl hx
    · rcases ih _ x hx with h | h
      · rcases distractorStep_cases correct ds m with hc | hc
        · rw [hc] at h; exact Or.inl h
        · rw [hc.2.2] at h
          rcases List.mem_append.1 h with h2 | h2
          · exact Or.inl h2
          · simp at h2; exact Or.inr (h2 ▸ List.mem_cons_self _ _)
      · exact Or.inr (List.mem_cons_of_mem _ h)

/-- The loop preserves duplicate-freeness and exclusion of the correct
meaning: every appended draw is checked against both. -/
lemma fillFromDraws_nodup (correct : String) :
    ∀ (draws ds : List String), ds.Nodup → (∀ d ∈ ds, d ≠ correct) →
      (fillFromDraws correct draws ds).Nodup ∧
        ∀ d ∈ fillFromDraws correct draws ds, d ≠ correct := by
  intro draws
  induction draws with
  | nil => intro ds h1 h2; exact ⟨h1, h2⟩
  | cons m rest ih =>
    intro ds h1 h2
    rw [fillFromDraws]
    split
    · exact ⟨h1, h2⟩
    · rcases distractorStep_cases correct ds m with hc | hc
      · rw [hc]; exact ih ds h1 h2
      · rw [hc.2.2]
        refine ih _ ?_ ?_
        · simp [List.nodup_append, h1, hc.2.1]
        · intro d hd
          rcases List.mem_append.1 hd with h | h
          · exact h2 d h
          · simp at h; exact h ▸ hc.1

/-- The loop never pushes the length beyond three. -/
lemma fillFromDraws_length_le (correct : String) :
    ∀ (draws ds : List String), ds.length ≤ 3 →
      (fillFromDraws correct draws ds).length ≤ 3 := by
  intro draws
  induction draws with
  | nil => intro ds h; exact h
  | cons m rest ih =>
    intro ds h
    rw [fillFromDraws]
    split
    · exact h
    · next hlen =>
      rcases distractorStep_cases correct ds m with hc | hc
      · rw [hc]; exact ih ds h
      · rw [hc.2.2]; exact ih _ (by simp; omega)

/-- Fair-stream termination of the fallback fill.  If some duplicate-free
list `S` of at least three meanings, all different from the correct one,
is drawn at arbitrarily late times, the loop reaches three distractors:
as long as fewer than three are collected some element of `S` is still
missing, and the first late draw of it (or any growth before that draw)
strictly increases the list. -/
lemma fill_terminates_of_fair (correct : String) (f : ℕ → String) (ds : List String)
    (S : List String) (hSnd : S.Nodup) (hSne : ∀ x ∈ S, x ≠ correct)
    (hSf : Fair f S) (hS3 : 3 ≤ S.length)
    (hnd : ds.Nodup) (hdc : ∀ d ∈ ds, d ≠ correct) :
    FillTerminates correct f ds := by
  have key : ∀ L, L ≤ 3 → ∃ n, L ≤ (fillFromDraws correct (streamTake f n) ds).length := by
    intro L
    induction L with
    | zero => intro _; exact ⟨0, Nat.zero_le _⟩
    | succ K ihK =>
      intro hK3
      obtain ⟨n, hn⟩ := ihK (by omega)
      by_cases hfull : 3 ≤ (fillFromDraws correct (streamTake f n) ds).length
      · exact ⟨n, by omega⟩
      · have hmiss : ∃ x ∈ S, x ∉ fillFromDraws correct (streamTake f n) ds := by
          by_contra hall
          push_neg at hall
          have hsub := List.subperm_of_subset hSnd hall
          have := hsub.length_le
          omega
        obtain ⟨x, hxS, hxnot⟩ := hmiss
        obtain ⟨m, hmn, hfm⟩ := hSf x hxS n
        by_cases hfullm : 3 ≤ (fillFromDraws correct (streamTake f m) ds).length
        · exact ⟨m, by omega⟩
        · refine ⟨m + 1, ?_⟩
          have hmono := fill_state_mono correct f ds n m hmn
          rw [fill_state_succ, if_neg hfullm, hfm]
          by_cases hxm : x ∈ fillFromDraws correct (streamTake f m) ds
          · -- `x` was absent at time `n` but present at time `m`:
            -- the list strictly grew in between.
            have hgrow : (fillFromDraws correct (streamTake f n) ds).length + 1
                ≤ (fillFromDraws correct (streamTake f m) ds).length := by
              have hndn := (fillFromDraws_nodup correct (streamTake f n) ds hnd hdc).1
              have hsub : List.Subperm (x :: fillFromDraws correct (streamTake f n) ds)
                  (fillFromDraws correct (streamTake f m) ds) := by
                refine List.subperm_of_subset (List.nodup_cons.2 ⟨hxnot, hndn⟩) ?_
                intro y hy
                rcases List.mem_cons.1 hy with h | h
                · exact h ▸ hxm
                · exact hmono.2 y h
              simpa using hsub.length_le
            rcases distractorStep_cases correct
              (fillFromDraws correct (streamTake f m) ds) x with hc | hc
            · rw [hc]; omega
            · rw [hc.2.2]; simp; omega
          · have hstep : distractorStep correct
                (fillFromDraws correct (streamTake f m) ds) x
                = fillFromDraws correct (streamTake f m) ds ++ [x] := by
              unfold distractorStep
              rw [if_pos ⟨hSne x hxS, hxm⟩]
            rw [hstep]
            simp
            omega
  obtain ⟨n, hn⟩ := key 3 le_rfl
  exact ⟨n, hn⟩

/-! ### Claim C4 -/

/-- A dissimilar verdict bounds the ratio by the threshold. -/
lemma of_is_similar_false {a b : String} {t : ℚ} (h : is_similar a b t = false) :
    a ≠ b ∧ ratio a b ≤ t := by
  have hne : a ≠ b := ne_of_not_similar h
  rw [is_similar_eval _ _ _ hne] at h
  simp at h
  exact ⟨hne, h⟩

/-- C4: `is_similar` returns `True` for equal strings regardless of the
metric, and for unequal strings returns `True` exactly when the
SequenceMatcher ratio strictly exceeds the threshold; a ratio exactly
equal to the threshold is not similar. -/
theorem C4_is_similar_boundary (str1 str2 : String) (t : ℚ) :
    (is_similar str1 str2 t = true ↔ str1 = str2 ∨ t < ratio str1 str2) ∧
      (str1 ≠ str2 → ratio str1 str2 = t → is_similar str1 str2 t = false) := by
  constructor
  · unfold is_similar
    split
    · next h => simp [h]
    · next h => simp [h]
  · intro hne heq
    rw [is_similar_eval _ _ _ hne, heq]
    simp

/-- Witness for C4 at the boundary: `ratio "ax" "xyz"` is exactly `2/5`,
and `is_similar` at threshold `2/5` rejects the pair. -/
theorem C4_witness :
    ("ax" : String) ≠ "xyz" ∧ ratio "ax" "xyz" = 2/5 ∧
      is_similar "ax" "xyz" (2/5) = false := by
  have hr : ratio "ax" "xyz" = 2/5 := by
    rw [ratio_eval "ax" "xyz" 1 5 (by decide) (by decide) (by decide)]; norm_num
  exact ⟨by decide, hr, (C4_is_similar_boundary "ax" "xyz" (2/5)).2 (by decide) hr⟩

/-! ### Claim C5 -/

/-- Summing the stored 0/1 flags counts the correct rows. -/
lemma sum_flags_eq_countP (l : List HistoryEvent) :
    (l.map fun e => if e.2 then 1 else 0).sum = l.countP fun e => e.2 := by
  induction l with
  | nil => rfl
  | cons e rest ih =>
    by_cases h : e.2
    · simp [List.countP_cons, h, ih]
      omega
    · simp [List.countP_cons, h, ih]

/-- C5: the adaptive weight of every word equals
`max 1 (10 + 20 * wrongCount - 2 * correctCount)`, where the counts are
the word's totals over all recorded history events, and a word with no
recorded attempts weighs exactly 10. -/
theorem C5_weight_formula (history : List HistoryEvent) (word : String) :
    wordWeight history word
        = max 1 (10 + 20 * (history.countP fun e => decide (e.1 = word) && !e.2 : ℤ)
            - 2 * (history.countP fun e => decide (e.1 = word) && e.2 : ℤ)) ∧
      ((history.filter fun e => e.1 = word) = [] → wordWeight history word = 10) := by
  have hc : correctsOf history word = history.countP fun e => decide (e.1 = word) && e.2 := by
    rw [correctsOf, sum_flags_eq_countP, rowsFor, List.countP_filter]
    congr 1
    funext e
    rw [Bool.and_comm]
  have hw : wrongsOf history word
      = history.countP fun e => decide (e.1 = word) && !e.2 := by
    have h1 : List.countP (fun e : HistoryEvent => e.2)
        (history.filter fun e => e.1 = word)
          = history.countP fun e => decide (e.1 = word) && e.2 := by
      rw [List.countP_filter]
      congr 1
      funext e
      rw [Bool.and_comm]
    have h2 : List.countP (fun a : HistoryEvent => decide ¬(a.2 = true))
        (history.filter fun e => e.1 = word)
          = history.countP fun e => decide (e.1 = word) && !e.2 := by
      rw [List.countP_filter]
      congr 1
      funext e
      cases e.2 <;> simp
    have hsplit : totalOf history word
        = (history.countP fun e => decide (e.1 = word) && e.2)
          + (history.countP fun e => decide (e.1 = word) && !e.2) := by
      rw [totalOf, rowsFor,
        List.length_eq_countP_add_countP (fun e : HistoryEvent => e.2), h1, h2]
    rw [wrongsOf, hc, hsplit]
    omega
  constructor
  · simp only [wordWeight, hc, hw]
    split <;> omega
  · intro hnil
    have h0 : totalOf history word = 0 := by simp [totalOf, rowsFor, hnil]
    have hc0 : correctsOf history word = 0 := by simp [correctsOf, rowsFor, hnil]
    have hw0 : wrongsOf history word = 0 := by simp [wrongsOf, h0]
    simp [wordWeight, hc0, hw0]

/-- Witness for C5: one wrong and one correct attempt at "apple", nothing
for "pear": weights `max 1 (10 + 20 - 2) = 28` and `10`. -/
theorem C5_witness :
    ([(("apple", false) : HistoryEvent), ("apple", true)].filter
        fun e => e.1 = "pear") = [] ∧
      wordWeight [("apple", false), ("apple", true)] "pear" = 10 ∧
      wordWeight [("apple", false), ("apple", true)] "apple" = 28 := by
  refine ⟨by decide, (C5_weight_formula [("apple", false), ("apple", true)] "pear").2 (by decide), ?_⟩
  rw [(C5_weight_formula [("apple", false), ("apple", true)] "apple").1]
  decide

/-! ### Claim C2 -/

/-- When the filter scan alone reaches three distractors, the fallback
loop exits immediately. -/
lemma generate_of_filter_full (pool : List String) (correct : String)
    (f : ℕ → String) (n : ℕ) (h3 : 3 ≤ (filterLoop correct pool []).length) :
    generateDistractors pool correct f n = filterLoop correct pool [] := by
  unfold generateDistractors
  exact fillFromDraws_stable correct _ _ h3

/-- C2 (amended): when the filter scan alone supplies all three
distractors, each returned distractor differs from the correct meaning and
has ratio at most the threshold to it, and each has ratio at most the
threshold to every distractor accepted before it — the direction the loop
checks.  (The symmetric bound claimed originally fails: the
SequenceMatcher ratio is order-dependent, see the counterexample.) -/
theorem C2_filter_only_bounds (pool : List String) (correct : String)
    (f : ℕ → String) (n : ℕ) (h3 : (filterLoop correct pool []).length = 3) :
    generateDistractors pool correct f n = filterLoop correct pool [] ∧
      (∀ d ∈ filterLoop correct pool [], d ≠ correct ∧ ratio d correct ≤ 2/5) ∧
      (filterLoop correct pool []).Pairwise fun a b => ratio b a ≤ 2/5 := by
  obtain ⟨ha, hb⟩ := filterLoop_dissimilar correct pool [] (by simp) (by simp)
  refine ⟨generate_of_filter_full pool correct f n (by omega), ?_, ?_⟩
  · intro d hd
    exact of_is_similar_false (ha d hd)
  · exact hb.imp fun h => (of_is_similar_false h).2

/-- The concrete filter-only run used by the C2 counterexample and
witness: with correct meaning `"xxx"` and the shuffled pool
`["aab", "abaaacb", "zzz", "xxx"]`, all three distractors pass the
filter. -/
lemma filterLoop_example :
    filterLoop "xxx" ["aab", "abaaacb", "zzz", "xxx"] [] = ["aab", "abaaacb", "zzz"] := by
  have h1 : is_similar "aab" "xxx" (2/5) = false := by
    rw [is_similar_eval _ _ _ (by decide),
      ratio_eval "aab" "xxx" 0 6 (by decide) (by decide) (by decide)]
    norm_num
  have h2 : is_similar "abaaacb" "xxx" (2/5) = false := by
    rw [is_similar_eval _ _ _ (by decide),
      ratio_eval "abaaacb" "xxx" 0 10 (by decide) (by decide) (by decide)]
    norm_num
  have h3 : is_similar "abaaacb" "aab" (2/5) = false := by
    rw [is_similar_eval _ _ _ (by decide),
      ratio_eval "abaaacb" "aab" 2 10 (by decide) (by decide) (by decide)]
    norm_num
  have h4 : is_similar "zzz" "xxx" (2/5) = false := by
    rw [is_similar_eval _ _ _ (by decide),
      ratio_eval "zzz" "xxx" 0 6 (by decide) (by decide) (by decide)]
    norm_num
  have h5 : is_similar "zzz" "aab" (2/5) = false := by
    rw [is_similar_eval _ _ _ (by decide),
      ratio_eval "zzz" "aab" 0 6 (by decide) (by decide) (by decide)]
    norm_num
  have h6 : is_similar "zzz" "abaaacb" (2/5) = false := by
    rw [is_similar_eval _ _ _ (by decide),
      ratio_eval "zzz" "abaaacb" 0 10 (by decide) (by decide) (by decide)]
    norm_num
  simp [filterLoop, h1, h2, h3, h4, h5, h6]

/-- C2 counterexample: a filter-only run (no fallback needed) returns
`["aab", "abaaacb", "zzz"]`, where the loop only checked
`ratio "abaaacb" "aab" = 2/5 ≤ 2/5`; in the opposite direction
`ratio "aab" "abaaacb" = 3/5` exceeds the threshold, so the returned
distractors are not pairwise within the threshold in both directions. -/
theorem C2_counterexample :
    filterLoop "xxx" ["aab", "abaaacb", "zzz", "xxx"] [] = ["aab", "abaaacb", "zzz"] ∧
      generateDistractors ["aab", "abaaacb", "zzz", "xxx"] "xxx" (fun _ => "zzz") 5
        = ["aab", "abaaacb", "zzz"] ∧
      ratio "abaaacb" "aab" ≤ 2/5 ∧ (2/5 : ℚ) < ratio "aab" "abaaacb" := by
  refine ⟨filterLoop_example, ?_, ?_, ?_⟩
  · rw [generate_of_filter_full _ _ _ _ (by rw [filterLoop_example]; decide)]
    exact filterLoop_example
  · rw [ratio_eval "abaaacb" "aab" 2 10 (by decide) (by decide) (by decide)]
    norm_num
  · rw [ratio_eval "aab" "abaaacb" 3 10 (by decide) (by decide) (by decide)]
    norm_num

/-- Witness for C2 on the same pool: the filter scan alone reaches three
distractors and the amended bounds hold there. -/
theorem C2_witness :
    (filterLoop "xxx" ["aab", "abaaacb", "zzz", "xxx"] []).length = 3 ∧
      generateDistractors ["aab", "abaaacb", "zzz", "xxx"] "xxx" (fun _ => "zzz") 5
          = filterLoop "xxx" ["aab", "abaaacb", "zzz", "xxx"] [] ∧
        (∀ d ∈ filterLoop "xxx" ["aab", "abaaacb", "zzz", "xxx"] [],
          d ≠ "xxx" ∧ ratio d "xxx" ≤ 2/5) ∧
        (filterLoop "xxx" ["aab", "abaaacb", "zzz", "xxx"] []).Pairwise
          fun a b => ratio b a ≤ 2/5 := by
  have hlen : (filterLoop "xxx" ["aab", "abaaacb", "zzz", "xxx"] []).length = 3 := by
    rw [filterLoop_example]
    rfl
  exact ⟨hlen, C2_filter_only_bounds _ _ (fun _ => "zzz") 5 hlen⟩

/-- Starting from no distractors, the fallback fill can never hold more
distinct entries than the usable pool: every accepted draw comes from the
pool and differs from the correct meaning, and the list stays
duplicate-free. -/
lemma fill_bounded (pool : List String) (correct : String) (f : ℕ → String)
    (hmem : ∀ n, f n ∈ pool) (n : ℕ) :
    (fillFromDraws correct (streamTake f n) []).length
      ≤ (usablePool pool correct).length := by
  have hnd := (fillFromDraws_nodup correct (streamTake f n) [] (by simp) (by simp)).1
  have hne := (fillFromDraws_nodup correct (streamTake f n) [] (by simp) (by simp)).2
  have hsub : ∀ x ∈ fillFromDraws correct (streamTake f n) [],
      x ∈ usablePool pool correct := by
    intro x hx
    have hxp : x ∈ pool := by
      rcases fillFromDraws_subset correct (streamTake f n) [] x hx with h | h
      · cases h
      · obtain ⟨i, _, hi⟩ := List.mem_map.1 h
        exact hi ▸ hmem i
    unfold usablePool
    rw [List.mem_filter]
    exact ⟨List.mem_dedup.2 hxp, by simpa using hne x hx⟩
  exact (List.subperm_of_subset hnd hsub).length_le

/-- The number of distinct non-correct meanings is at least 3 when the
pool holds at least 4 distinct meanings, one of them the correct one. -/
lemma usablePool_three (pool : List String) (correct : String)
    (h4 : 4 ≤ pool.dedup.length) : 3 ≤ (usablePool pool correct).length := by
  have hnd : pool.dedup.Nodup := pool.nodup_dedup
  have key : ∀ (l : List String), l.Nodup →
      l.length ≤ (l.filter fun x => x ≠ correct).length + 1 := by
    intro l
    induction l with
    | nil => simp
    | cons b t ih =>
      intro hbt
      rw [List.nodup_cons] at hbt
      by_cases hb : b = correct
      · have hskip : (b :: t).filter (fun x => x ≠ correct)
            = t.filter (fun x => x ≠ correct) := by
          rw [List.filter_cons_of_neg]
          simp [hb]
        have hall : t.filter (fun x => x ≠ correct) = t := by
          rw [List.filter_eq_self]
          intro a ha
          simp
          intro hac
          exact hbt.1 (by rw [hb, ← hac]; exact ha)
        rw [hskip, hall]
        simp
      · have hkeep : (b :: t).filter (fun x => x ≠ correct)
            = b :: t.filter (fun x => x ≠ correct) := by
          rw [List.filter_cons_of_pos]
          simp [hb]
        have := ih hbt.2
        rw [hkeep]
        simp only [List.length_cons]
        omega
  have := key pool.dedup hnd
  unfold usablePool
  omega

/-- Properties of the usable pool feeding the termination lemma. -/
lemma usablePool_spec (pool : List String) (correct : String) :
    (usablePool pool correct).Nodup ∧
      (∀ x ∈ usablePool pool correct, x ≠ correct) ∧
      ∀ x ∈ usablePool pool correct, x ∈ pool := by
  refine ⟨pool.nodup_dedup.filter _, ?_, ?_⟩
  · intro x hx
    have := (List.mem_filter.1 hx).2
    simpa using this
  · intro x hx
    exact List.mem_dedup.1 (List.mem_filter.1 hx).1

/-- C3 (amended): the fallback fill, started from any duplicate-free
distractor list free of the correct meaning, terminates on every fair
draw stream from the pool provided the pool has at least three distinct
meanings different from the correct one; when it has fewer, no draw
stream from the pool terminates (the loop runs forever). -/
theorem C3_fallback_termination (pool : List String) (correct : String)
    (f : ℕ → String) (ds : List String) (hmem : ∀ n, f n ∈ pool)
    (hnd : ds.Nodup) (hdc : ∀ d ∈ ds, d ≠ correct) :
    (Fair f pool → 3 ≤ (usablePool pool correct).length →
        FillTerminates correct f ds) ∧
      ((usablePool pool correct).length < 3 → ds = [] →
        ¬ FillTerminates correct f ds) := by
  constructor
  · intro hf h3
    obtain ⟨hSnd, hSne, hSpool⟩ := usablePool_spec pool correct
    refine fill_terminates_of_fair correct f ds (usablePool pool correct)
      hSnd hSne ?_ h3 hnd hdc
    intro x hx n
    exact hf x (hSpool x hx) n
  · intro hlt hds
    subst hds
    rintro ⟨n, hn⟩
    have := fill_bounded pool correct f hmem n
    omega

lemma cyc4_mem : ∀ n, cyc4 n ∈ ["a", "b", "c", "d"] := by
  intro n
  have h : n % 4 = 0 ∨ n % 4 = 1 ∨ n % 4 = 2 ∨ n % 4 = 3 := by omega
  rcases h with h | h | h | h <;> simp [cyc4, h]

lemma cyc4_fair : Fair cyc4 ["a", "b", "c", "d"] := by
  intro x hx n
  simp at hx
  rcases hx with h | h | h | h
  · exact ⟨4 * (n + 1), by omega, by
      have hm : (4 * (n + 1)) % 4 = 0 := by omega
      simp [cyc4, hm, h]⟩
  · exact ⟨4 * (n + 1) + 1, by omega, by
      have hm : (4 * (n + 1) + 1) % 4 = 1 := by omega
      simp [cyc4, hm, h]⟩
  · exact ⟨4 * (n + 1) + 2, by omega, by
      have hm : (4 * (n + 1) + 2) % 4 = 2 := by omega
      simp [cyc4, hm, h]⟩
  · exact ⟨4 * (n + 1) + 3, by omega, by
      have hm : (4 * (n + 1) + 3) % 4 = 3 := by omega
      simp [cyc4, hm, h]⟩

/-- Witness for C3: on the pool `["a","b","c","d"]` with correct meaning
`"a"`, the fair cyclic stream drives the fallback fill to completion. -/
theorem C3_witness :
    (∀ n, cyc4 n ∈ ["a", "b", "c", "d"]) ∧ Fair cyc4 ["a", "b", "c", "d"] ∧
      FillTerminates "a" cyc4 [] := by
  refine ⟨cyc4_mem, cyc4_fair, ?_⟩
  exact (C3_fallback_termination ["a", "b", "c", "d"] "a" cyc4 [] cyc4_mem
    (by simp) (by simp)).1 cyc4_fair (by decide)

/-- C3 counterexample: on the pool `["a","a","a","a"]` with correct
meaning `"a"` — four meanings but only one distinct — every draw stream
from the pool is constantly `"a"`, and the fallback `while` loop never
terminates, contradicting termination "for every pool of meanings and
every correct meaning". -/
theorem C3_counterexample : ¬ FillTerminates "a" (fun _ => "a") [] := by
  rintro ⟨n, hn⟩
  have hb := fill_bounded ["a", "a", "a", "a"] "a" (fun _ => "a") (by simp) n
  have hu : (usablePool ["a", "a", "a", "a"] "a").length = 0 := by decide
  omega

/-! ### Claim C1 -/

/-- Once three distractors are present, the state never changes again. -/
lemma fill_state_stable (correct : String) (f : ℕ → String) (ds : List String)
    (n : ℕ) (h3 : 3 ≤ (fillFromDraws correct (streamTake f n) ds).length) :
    ∀ m, n ≤ m →
      fillFromDraws correct (streamTake f m) ds
        = fillFromDraws correct (streamTake f n) ds := by
  intro m hnm
  induction m with
  | zero =>
    have h0 : n = 0 := Nat.le_zero.1 hnm
    rw [h0]
  | succ k ih =>
    rcases Nat.lt_or_ge n (k + 1) with h | h
    · have hk := ih (Nat.lt_succ_iff.1 h)
      rw [fill_state_succ, hk, if_pos h3]
    · have hk : n = k + 1 := le_antisymm hnm h
      rw [hk]

/-- Core of C1 and C10: on a pool with at least four distinct meanings
containing the correct one, and a fair draw stream from the pool, the
distractor-generation step stabilises at exactly three pairwise-distinct
strings, all from the pool and none equal to the correct meaning. -/
lemma generate_spec (pool : List String) (correct : String) (f : ℕ → String)
    (hmem : ∀ n, f n ∈ pool) (hf : Fair f pool)
    (hc : correct ∈ pool) (h4 : 4 ≤ pool.dedup.length) :
    ∃ n, ∀ m, n ≤ m →
      (generateDistractors pool correct f m).length = 3 ∧
        (generateDistractors pool correct f m).Nodup ∧
        ∀ d ∈ generateDistractors pool correct f m, d ≠ correct ∧ d ∈ pool := by
  obtain ⟨hSnd, hSne, hSpool⟩ := usablePool_spec pool correct
  have h3 := usablePool_three pool correct h4
  have hds0 := filterLoop_nodup correct pool [] (by simp) (by simp)
  obtain ⟨n, hn⟩ := fill_terminates_of_fair correct f (filterLoop correct pool [])
    (usablePool pool correct) hSnd hSne
    (fun x hx k => hf x (hSpool x hx) k) h3 hds0.1 hds0.2
  refine ⟨n, fun m hm => ?_⟩
  have hstab := fill_state_stable correct f (filterLoop correct pool []) n hn m hm
  have heq : generateDistractors pool correct f m
      = fillFromDraws correct (streamTake f n) (filterLoop correct pool []) := by
    unfold generateDistractors
    exact hstab
  have hle : (fillFromDraws correct (streamTake f n) (filterLoop correct pool [])).length ≤ 3 :=
    fillFromDraws_length_le correct _ _
      (filterLoop_length_le correct pool [] (by simp))
  have hnodup := fillFromDraws_nodup correct (streamTake f n)
    (filterLoop correct pool []) hds0.1 hds0.2
  refine ⟨?_, ?_, ?_⟩
  · rw [heq]; omega
  · rw [heq]; exact hnodup.1
  · intro d hd
    rw [heq] at hd
    refine ⟨hnodup.2 d hd, ?_⟩
    rcases fillFromDraws_subset correct _ _ d hd with h | h
    · rcases filterLoop_subset correct pool [] d h with h2 | h2
      · cases h2
      · exact h2
    · obtain ⟨i, _, hi⟩ := List.mem_map.1 h
      exact hi ▸ hmem i

/-- C1: for every pool with at least four distinct meanings and every
correct meaning drawn from it, the distractor-generation step (filter
scan plus, if needed, the fair random fallback fill) returns exactly
three pairwise-distinct strings from the pool, none equal to the correct
meaning, and the output is stable once reached. -/
theorem C1_generate_contract (pool : List String) (correct : String) (f : ℕ → String)
    (hmem : ∀ n, f n ∈ pool) (hf : Fair f pool)
    (hc : correct ∈ pool) (h4 : 4 ≤ pool.dedup.length) :
    ∃ n, ∀ m, n ≤ m →
      (generateDistractors pool correct f m).length = 3 ∧
        (generateDistractors pool correct f m).Nodup ∧
        ∀ d ∈ generateDistractors pool correct f m, d ≠ correct ∧ d ∈ pool :=
  generate_spec pool correct f hmem hf hc h4

/-- Witness for C1: the pool `["a","b","c","d"]`, correct meaning `"a"`,
fair cyclic draws. -/
theorem C1_witness :
    ((("a" : String) ∈ (["a", "b", "c", "d"] : List String)) ∧
        4 ≤ (["a", "b", "c", "d"] : List String).dedup.length ∧
        Fair cyc4 ["a", "b", "c", "d"]) ∧
      ∃ n, ∀ m, n ≤ m →
        (generateDistractors ["a", "b", "c", "d"] "a" cyc4 m).length = 3 ∧
          (generateDistractors ["a", "b", "c", "d"] "a" cyc4 m).Nodup ∧
          ∀ d ∈ generateDistractors ["a", "b", "c", "d"] "a" cyc4 m,
            d ≠ "a" ∧ d ∈ ["a", "b", "c", "d"] :=
  ⟨⟨by decide, by decide, cyc4_fair⟩,
    C1_generate_contract ["a", "b", "c", "d"] "a" cyc4 cyc4_mem cyc4_fair
      (by decide) (by decide)⟩

/-! ### Claim C10 -/

/-- C10: whenever the choices for the current question are generated (and
the generation terminates), the assembled choice list — the three
distractors plus the correct meaning, in any shuffled order — has exactly
four pairwise-distinct entries, exactly one of which equals the current
word's correct meaning. -/
theorem C10_choices_unambiguous (qd : QuizData) (q_word : String) (f : ℕ → String)
    (hmem : ∀ n, f n ∈ qd.meanings) (hf : Fair f qd.meanings)
    (hc : qd.meaning q_word ∈ qd.meanings) (h4 : 4 ≤ qd.meanings.dedup.length) :
    ∃ n, ∀ m, n ≤ m → ∀ ch : List String,
      ch.Perm (generateDistractors qd.meanings (qd.meaning q_word) f m
          ++ [qd.meaning q_word]) →
        ch.length = 4 ∧ ch.Nodup ∧ ch.count (qd.meaning q_word) = 1 := by
  obtain ⟨n, hn⟩ := generate_spec qd.meanings (qd.meaning q_word) f hmem hf hc h4
  refine ⟨n, fun m hm ch hperm => ?_⟩
  obtain ⟨hlen, hnd, hall⟩ := hn m hm
  have hnotmem : qd.meaning q_word ∉
      generateDistractors qd.meanings (qd.meaning q_word) f m := by
    intro hmm
    exact (hall _ hmm).1 rfl
  constructor
  · rw [hperm.length_eq]
    simp [hlen]
  constructor
  · rw [hperm.nodup_iff]
    rw [List.nodup_append]
    exact ⟨hnd, List.nodup_singleton _, by simpa using hnotmem⟩
  · rw [hperm.count_eq]
    rw [List.count_append]
    rw [List.count_eq_zero.2 hnotmem]
    simp

/-- Witness for C10: a four-word store with distinct meanings; quizzing
the word "w1" whose meaning is "a". -/
theorem C10_witness :
    ((QuizData.mk [("w1", "a"), ("w2", "b"), ("w3", "c"), ("w4", "d")] ["w1"] 1).meaning "w1"
          ∈ (QuizData.mk [("w1", "a"), ("w2", "b"), ("w3", "c"), ("w4", "d")] ["w1"] 1).meanings ∧
        4 ≤ (QuizData.mk [("w1", "a"), ("w2", "b"), ("w3", "c"), ("w4", "d")] ["w1"] 1).meanings.dedup.length) ∧
      ∃ n, ∀ m, n ≤ m → ∀ ch : List String,
        ch.Perm (generateDistractors
            (QuizData.mk [("w1", "a"), ("w2", "b"), ("w3", "c"), ("w4", "d")] ["w1"] 1).meanings
            ((QuizData.mk [("w1", "a"), ("w2", "b"), ("w3", "c"), ("w4", "d")] ["w1"] 1).meaning "w1")
            cyc4 m
          ++ [(QuizData.mk [("w1", "a"), ("w2", "b"), ("w3", "c"), ("w4", "d")] ["w1"] 1).meaning "w1"]) →
          ch.length = 4 ∧ ch.Nodup ∧
            ch.count ((QuizData.mk [("w1", "a"), ("w2", "b"), ("w3", "c"), ("w4", "d")] ["w1"] 1).meaning "w1") = 1 :=
  ⟨⟨by decide, by decide⟩,
    C10_choices_unambiguous
      (QuizData.mk [("w1", "a"), ("w2", "b"), ("w3", "c"), ("w4", "d")] ["w1"] 1) "w1" cyc4
      cyc4_mem cyc4_fair (by decide) (by decide)⟩

/-! ### Claim C6 -/

/-- In a duplicate-free list, the element at a position does not survive
the removal of that position. -/
lemma get_not_mem_eraseIdx :
    ∀ (l : List String), l.Nodup → ∀ (j : ℕ) (hj : j < l.length),
      l.get ⟨j, hj⟩ ∉ l.eraseIdx j := by
  intro l
  induction l with
  | nil => intro _ j hj; simp at hj
  | cons a t ih =>
    intro hnd j hj
    rw [List.nodup_cons] at hnd
    cases j with
    | zero => simpa using hnd.1
    | succ i =>
      simp only [List.get_cons_succ, List.eraseIdx_cons_succ]
      intro hmem
      rcases List.mem_cons.1 hmem with h | h
      · exact hnd.1 (h ▸ List.get_mem t _ _)
      · exact ih hnd.2 i (by simpa using hj) h

/-- Invariants of one weighted draw round: the drawn word is a member,
and removing its first occurrence shortens a duplicate-free list by one,
keeps it duplicate-free, and removes the word. -/
lemma selectLoop_spec (pick : ℕ → ℕ) :
    ∀ (n step : ℕ) (tw : List String) (wts : List ℤ), tw.Nodup →
      (selectLoop pick step tw wts n).length = min n tw.length ∧
        (selectLoop pick step tw wts n).Nodup ∧
        ∀ x ∈ selectLoop pick step tw wts n, x ∈ tw := by
  intro n
  induction n with
  | zero => intro step tw wts _; simp [selectLoop]
  | succ k ih =>
    intro step tw wts hnd
    match htw : tw with
    | [] => simp [selectLoop]
    | a :: t =>
      rw [selectLoop]
      have hlen0 : 0 < (a :: t).length := by simp
      set i := pick step % (a :: t).length with hi
      have hilt : i < (a :: t).length := Nat.mod_lt _ hlen0
      set chosen := (a :: t).get ⟨i, hilt⟩ with hch
      have hchmem : chosen ∈ a :: t := List.get_mem _ _ _
      have hidxlt : (a :: t).indexOf chosen < (a :: t).length :=
        List.indexOf_lt_length.2 hchmem
      have hgetidx : (a :: t).get ⟨(a :: t).indexOf chosen, hidxlt⟩ = chosen :=
        List.indexOf_get hidxlt
      have hsub : List.Sublist ((a :: t).eraseIdx ((a :: t).indexOf chosen)) (a :: t) :=
        List.eraseIdx_sublist _ _
      have hnd2 : ((a :: t).eraseIdx ((a :: t).indexOf chosen)).Nodup :=
        hnd.sublist hsub
      have hlen2 : ((a :: t).eraseIdx ((a :: t).indexOf chosen)).length
          = (a :: t).length - 1 := by
        rw [List.length_eraseIdx]
        simpa using hidxlt
      have hchout : chosen ∉ (a :: t).eraseIdx ((a :: t).indexOf chosen) := by
        have hgen := get_not_mem_eraseIdx (a :: t) hnd ((a :: t).indexOf chosen) hidxlt
        rw [hgetidx] at hgen
        exact hgen
      obtain ⟨ihl, ihnd, ihsub⟩ := ih (step + 1)
        ((a :: t).eraseIdx ((a :: t).indexOf chosen)) (wts.eraseIdx ((a :: t).indexOf chosen)) hnd2
      refine ⟨?_, ?_, ?_⟩
      · simp only [List.length_cons, ihl, hlen2]
        omega
      · exact List.nodup_cons.2 ⟨fun hmm => hchout (ihsub _ hmm), ihnd⟩
      · intro x hx
        rcases List.mem_cons.1 hx with h | h
        · exact h ▸ hchmem
        · exact hsub.subset (ihsub x h)

/-- Same invariants for the uniform `random.sample` model. -/
lemma uniformSample_spec (pick : ℕ → ℕ) :
    ∀ (n step : ℕ) (tw : List String), tw.Nodup →
      (uniformSample pick step tw n).length = min n tw.length ∧
        (uniformSample pick step tw n).Nodup ∧
        ∀ x ∈ uniformSample pick step tw n, x ∈ tw := by
  intro n
  induction n with
  | zero => intro step tw _; simp [uniformSample]
  | succ k ih =>
    intro step tw hnd
    match htw : tw with
    | [] => simp [uniformSample]
    | a :: t =>
      have hlen0 : 0 < (a :: t).length := by simp
      set i := pick step % (a :: t).length with hi
      have hilt : i < (a :: t).length := Nat.mod_lt _ hlen0
      have hgoal : uniformSample pick step (a :: t) (k + 1)
          = (a :: t).get ⟨i, hilt⟩ :: uniformSample pick (step + 1) ((a :: t).eraseIdx i) k := by
        rw [uniformSample]
      rw [hgoal]
      have hsub : List.Sublist ((a :: t).eraseIdx i) (a :: t) := List.eraseIdx_sublist _ _
      have hnd2 : ((a :: t).eraseIdx i).Nodup := hnd.sublist hsub
      have hlen2 : ((a :: t).eraseIdx i).length = (a :: t).length - 1 := by
        rw [List.length_eraseIdx]
        simpa using hilt
      have hchout : (a :: t).get ⟨i, hilt⟩ ∉ (a :: t).eraseIdx i :=
        get_not_mem_eraseIdx (a :: t) hnd i hilt
      obtain ⟨ihl, ihnd, ihsub⟩ := ih (step + 1) ((a :: t).eraseIdx i) hnd2
      refine ⟨?_, ?_, ?_⟩
      · simp only [List.length_cons, ihl, hlen2]
        omega
      · exact List.nodup_cons.2 ⟨fun hmm => hchout (ihsub _ hmm), ihnd⟩
      · intro x hx
        rcases List.mem_cons.1 hx with h | h
        · exact h ▸ List.get_mem _ _ _
        · exact hsub.subset (ihsub x h)

/-- C6: in adaptive mode (`get_weighted_questions`) as well as uniform
mode (`random.sample`, also the fallback of the adaptive path), the
selector returns exactly `min count |words|` words, with no word repeated
and every word drawn from the input list. -/
theorem C6_selector_contract (pick : ℕ → ℕ) (history : List HistoryEvent)
    (words : List String) (num : ℕ) (hnd : words.Nodup) :
    ((get_weighted_questions pick history words num).length = min num words.length ∧
        (get_weighted_questions pick history words num).Nodup ∧
        ∀ x ∈ get_weighted_questions pick history words num, x ∈ words) ∧
      ((uniformSample pick 0 words (min num words.length)).length = min num words.length ∧
        (uniformSample pick 0 words (min num words.length)).Nodup ∧
        ∀ x ∈ uniformSample pick 0 words (min num words.length), x ∈ words) := by
  constructor
  · obtain ⟨h1, h2, h3⟩ := selectLoop_spec pick (min num words.length) 0 words
      (words.map (wordWeight history)) hnd
    exact ⟨by rw [get_weighted_questions, h1]; omega, h2, h3⟩
  · obtain ⟨h1, h2, h3⟩ := uniformSample_spec pick (min num words.length) 0 words hnd
    exact ⟨by rw [h1]; omega, h2, h3⟩

/-- Witness for C6: three words, five questions requested, first-index
oracle and a small history. -/
theorem C6_witness :
    (["cat", "dog", "ape"] : List String).Nodup ∧
      ((get_weighted_questions (fun _ => 0) [("cat", false)] ["cat", "dog", "ape"] 5).length
            = min 5 (["cat", "dog", "ape"] : List String).length ∧
          (get_weighted_questions (fun _ => 0) [("cat", false)] ["cat", "dog", "ape"] 5).Nodup ∧
          ∀ x ∈ get_weighted_questions (fun _ => 0) [("cat", false)] ["cat", "dog", "ape"] 5,
            x ∈ ["cat", "dog", "ape"]) ∧
        ((uniformSample (fun _ => 0) 0 ["cat", "dog", "ape"]
              (min 5 (["cat", "dog", "ape"] : List String).length)).length
            = min 5 (["cat", "dog", "ape"] : List String).length ∧
          (uniformSample (fun _ => 0) 0 ["cat", "dog", "ape"]
              (min 5 (["cat", "dog", "ape"] : List String).length)).Nodup ∧
          ∀ x ∈ uniformSample (fun _ => 0) 0 ["cat", "dog", "ape"]
              (min 5 (["cat", "dog", "ape"] : List String).length),
            x ∈ ["cat", "dog", "ape"]) := by
  have h := C6_selector_contract (fun _ => 0) [("cat", false)] ["cat", "dog", "ape"] 5 (by decide)
  exact ⟨by decide, h.1, h.2⟩

/-! ### Claims C7 and C8 -/

/-- Field effects of one `check_answer` transition. -/
lemma check_answer_fields (sel : String) (s : SessionState) :
    (check_answer sel s).quiz_data = s.quiz_data ∧
      (check_answer sel s).current_index = s.current_index + 1 ∧
      (check_answer sel s).current_choices = none ∧
      s.score ≤ (check_answer sel s).score ∧
      (check_answer sel s).score ≤ s.score + 1 ∧
      (check_answer sel s).quiz_finished
          = (if s.quiz_data.total_questions ≤ s.current_index + 1
              then true else s.quiz_finished) ∧
      (check_answer sel s).history
          = s.history ++ [(s.q_word, decide (sel = s.correct_meaning))] := by
  rcases Bool.eq_false_or_eq_true (decide (sel = s.correct_meaning)) with h | h <;>
    by_cases h2 : s.quiz_data.total_questions ≤ s.current_index + 1 <;>
      simp [check_answer, move_to_next, h, h2, Nat.le_succ]

/-- Field effects of one `handle_time_up` transition. -/
lemma handle_time_up_fields (s : SessionState) :
    (handle_time_up s).quiz_data = s.quiz_data ∧
      (handle_time_up s).current_index = s.current_index + 1 ∧
      (handle_time_up s).current_choices = none ∧
      (handle_time_up s).score = s.score ∧
      (handle_time_up s).quiz_finished
          = (if s.quiz_data.total_questions ≤ s.current_index + 1
              then true else s.quiz_finished) ∧
      (handle_time_up s).history = s.history ++ [(s.q_word, false)] := by
  by_cases h2 : s.quiz_data.total_questions ≤ s.current_index + 1 <;>
    simp [handle_time_up, move_to_next, h2]

/-- C7: from the initial state, every answer/time-up transition advances
the index by exactly one, clears the cached choices, and raises the score
by at most one; along every reachable state `score ≤ index ≤ total`
holds, and the session is finished exactly when the index reaches the
question count. -/
theorem C7_session_invariant (qd : QuizData) (h0 : List HistoryEvent)
    (s : SessionState) (ht : 1 ≤ qd.total_questions)
    (hr : Reach (initState qd h0) s) :
    (s.quiz_data = qd ∧ s.score ≤ s.current_index ∧
        s.current_index ≤ qd.total_questions ∧
        (s.quiz_finished = true ↔ s.current_index = qd.total_questions)) ∧
      (∀ sel, (check_answer sel s).current_index = s.current_index + 1 ∧
        (check_answer sel s).current_choices = none ∧
        s.score ≤ (check_answer sel s).score ∧
        (check_answer sel s).score ≤ s.score + 1) ∧
      ((handle_time_up s).current_index = s.current_index + 1 ∧
        (handle_time_up s).current_choices = none ∧
        (handle_time_up s).score = s.score) := by
  refine ⟨?_, ?_, ?_⟩
  · induction hr with
    | refl => exact ⟨rfl, le_rfl, Nat.zero_le _, by simp [initState]; omega⟩
    | answer s2 sel hs hrun ih =>
      obtain ⟨hqd, hidx, _, _, hscu, hfin, _⟩ := check_answer_fields sel s2
      obtain ⟨ihqd, ihsc, ihle, ihiff⟩ := ih
      have hlt : s2.current_index < qd.total_questions := by
        rcases Nat.lt_or_ge s2.current_index qd.total_questions with h | h
        · exact h
        · have : s2.current_index = qd.total_questions := le_antisymm ihle h
          rw [← ihiff] at this
          rw [hrun] at this
          cases this
      refine ⟨hqd ▸ ihqd, by omega, by omega, ?_⟩
      rw [hfin, hidx, ihqd, hrun]
      split
      · next h => simp; omega
      · next h => simp; omega
    | timeup s2 hs hrun ih =>
      obtain ⟨hqd, hidx, _, hsc, hfin, _⟩ := handle_time_up_fields s2
      obtain ⟨ihqd, ihsc, ihle, ihiff⟩ := ih
      have hlt : s2.current_index < qd.total_questions := by
        rcases Nat.lt_or_ge s2.current_index qd.total_questions with h | h
        · exact h
        · have : s2.current_index = qd.total_questions := le_antisymm ihle h
          rw [← ihiff] at this
          rw [hrun] at this
          cases this
      refine ⟨hqd ▸ ihqd, by omega, by omega, ?_⟩
      rw [hfin, hidx, ihqd, hrun]
      split
      · next h => simp; omega
      · next h => simp; omega
  · intro sel
    obtain ⟨_, hidx, hch, hsc1, hsc2, _, _⟩ := check_answer_fields sel s
    exact ⟨hidx, hch, hsc1, hsc2⟩
  · obtain ⟨_, hidx, hch, hsc, _, _⟩ := handle_time_up_fields s
    exact ⟨hidx, hch, hsc⟩

/-- Witness for C7 at a concrete two-question session after one correct
answer. -/
theorem C7_witness :
    1 ≤ (QuizData.mk [("w1", "a"), ("w2", "b"), ("w3", "c"), ("w4", "d")] ["w1", "w2"] 2).total_questions ∧
      Reach (initState (QuizData.mk [("w1", "a"), ("w2", "b"), ("w3", "c"), ("w4", "d")] ["w1", "w2"] 2) [])
        (check_answer "a"
          (initState (QuizData.mk [("w1", "a"), ("w2", "b"), ("w3", "c"), ("w4", "d")] ["w1", "w2"] 2) [])) ∧
      ((check_answer "a"
            (initState (QuizData.mk [("w1", "a"), ("w2", "b"), ("w3", "c"), ("w4", "d")] ["w1", "w2"] 2) [])).quiz_data
          = QuizData.mk [("w1", "a"), ("w2", "b"), ("w3", "c"), ("w4", "d")] ["w1", "w2"] 2 ∧
        (check_answer "a"
            (initState (QuizData.mk [("w1", "a"), ("w2", "b"), ("w3", "c"), ("w4", "d")] ["w1", "w2"] 2) [])).score
          ≤ (check_answer "a"
            (initState (QuizData.mk [("w1", "a"), ("w2", "b"), ("w3", "c"), ("w4", "d")] ["w1", "w2"] 2) [])).current_index ∧
        (check_answer "a"
            (initState (QuizData.mk [("w1", "a"), ("w2", "b"), ("w3", "c"), ("w4", "d")] ["w1", "w2"] 2) [])).current_index
          ≤ (QuizData.mk [("w1", "a"), ("w2", "b"), ("w3", "c"), ("w4", "d")] ["w1", "w2"] 2).total_questions ∧
        ((check_answer "a"
              (initState (QuizData.mk [("w1", "a"), ("w2", "b"), ("w3", "c"), ("w4", "d")] ["w1", "w2"] 2) [])).quiz_finished = true
          ↔ (check_answer "a"
              (initState (QuizData.mk [("w1", "a"), ("w2", "b"), ("w3", "c"), ("w4", "d")] ["w1", "w2"] 2) [])).current_index
            = (QuizData.mk [("w1", "a"), ("w2", "b"), ("w3", "c"), ("w4", "d")] ["w1", "w2"] 2).total_questions)) := by
  have hreach : Reach (initState (QuizData.mk [("w1", "a"), ("w2", "b"), ("w3", "c"), ("w4", "d")] ["w1", "w2"] 2) [])
      (check_answer "a"
        (initState (QuizData.mk [("w1", "a"), ("w2", "b"), ("w3", "c"), ("w4", "d")] ["w1", "w2"] 2) [])) :=
    Reach.answer _ "a" Reach.refl rfl
  exact ⟨by decide, hreach,
    (C7_session_invariant (QuizData.mk [("w1", "a"), ("w2", "b"), ("w3", "c"), ("w4", "d")] ["w1", "w2"] 2) []
      _ (by decide) hreach).1⟩

/-- C8: every answer appends exactly one history event whose flag is the
observed outcome, and `handle_time_up` appends a `false` event, leaves
the score unchanged, and produces exactly the state of a wrong answer up
to the `last_result` message. -/
theorem C8_timeout_is_wrong_answer (s : SessionState) :
    (∀ sel, (check_answer sel s).history
        = s.history ++ [(s.q_word, decide (sel = s.correct_meaning))]) ∧
      (handle_time_up s).history = s.history ++ [(s.q_word, false)] ∧
      (handle_time_up s).score = s.score ∧
      ∀ sel, sel ≠ s.correct_meaning →
        handle_time_up s
          = { check_answer sel s with last_result := (handle_time_up s).last_result } := by
  refine ⟨?_, ?_, ?_, ?_⟩
  · intro sel
    exact (check_answer_fields sel s).2.2.2.2.2.2
  · exact (handle_time_up_fields s).2.2.2.2.2
  · exact (handle_time_up_fields s).2.2.2.1
  · intro sel hne
    have hd : decide (sel = s.correct_meaning) = false := by
      simpa using hne
    by_cases h2 : s.quiz_data.total_questions ≤ s.current_index + 1 <;>
      simp [check_answer, handle_time_up, move_to_next, hd, h2]

/-- Witness for C8: a wrong selection and a timeout from the same initial
state agree on everything but the message. -/
theorem C8_witness :
    ("b" : String) ≠ (initState (QuizData.mk [("w1", "a")] ["w1"] 1) []).correct_meaning ∧
      (handle_time_up (initState (QuizData.mk [("w1", "a")] ["w1"] 1) [])).history
          = [] ++ [((initState (QuizData.mk [("w1", "a")] ["w1"] 1) []).q_word, false)] ∧
        (handle_time_up (initState (QuizData.mk [("w1", "a")] ["w1"] 1) [])).score = 0 ∧
        handle_time_up (initState (QuizData.mk [("w1", "a")] ["w1"] 1) [])
          = { check_answer "b" (initState (QuizData.mk [("w1", "a")] ["w1"] 1) []) with
              last_result := (handle_time_up (initState (QuizData.mk [("w1", "a")] ["w1"] 1) [])).last_result } := by
  have h := C8_timeout_is_wrong_answer (initState (QuizData.mk [("w1", "a")] ["w1"] 1) [])
  have hne : ("b" : String) ≠ (initState (QuizData.mk [("w1", "a")] ["w1"] 1) []).correct_meaning := by
    decide
  exact ⟨hne, h.2.1, h.2.2.1, h.2.2.2 "b" hne⟩

/-! ### Claim C9 -/

/-- C9 (amended): with the history store unavailable, the append raises
and the whole transition aborts with the session state unchanged — the
score is not updated, the index does not advance, the choices are not
cleared; with the store available the transition is exactly the ordinary
one.  (The original claim — that the failure is recovered and the
transition still completes — does not hold: there is no exception
handling on the answer path.) -/
theorem C9_append_failure_aborts (s : SessionState) (sel : String) :
    check_answerE false sel s = Except.error s ∧
      handle_time_upE false s = Except.error s ∧
      check_answerE true sel s = Except.ok (check_answer sel s) ∧
      handle_time_upE true s = Except.ok (handle_time_up s) := by
  refine ⟨rfl, rfl, ?_, ?_⟩
  · unfold check_answerE check_answer save_historyE
    rfl
  · unfold handle_time_upE handle_time_up save_historyE
    rfl

/-- C9 counterexample: at a concrete mid-session state with the store
unavailable, the answer transition returns an error carrying the
unchanged state — the index is still 0 and the score still 0 — instead of
completing with the index advanced. -/
theorem C9_counterexample :
    check_answerE false "a" (initState (QuizData.mk [("w1", "a")] ["w1"] 1) [])
        = Except.error (initState (QuizData.mk [("w1", "a")] ["w1"] 1) []) ∧
      (initState (QuizData.mk [("w1", "a")] ["w1"] 1) []).current_index = 0 ∧
      (initState (QuizData.mk [("w1", "a")] ["w1"] 1) []).score = 0 ∧
      ∀ s2 : SessionState,
        check_answerE false "a" (initState (QuizData.mk [("w1", "a")] ["w1"] 1) []) ≠ Except.ok s2 := by
  refine ⟨rfl, rfl, rfl, ?_⟩
  intro s2
  simp [check_answerE, save_historyE]

end ToeicQuiz

